import Mathlib

/-!
Verification of the Summer-of-Making knowledge-organization engine.

This file gives a shallow embedding, in Lean 4, of the parts of the Rust
source that the specification claims are about:

* `LibSearch`   — the in-memory search engine of `src/libs/search/src/lib.rs`
  (`SearchEngine`: `add_document`, `remove_document`, `fuzzy_search`,
  `semantic_search`, pagination in `build_search_results`,
  `levenshtein_distance`, `tokenize`).
* `RcIndexer`   — `FullTextIndexer` of `src/rust-core/search/src/indexer.rs`
  (`index_document`, `remove_document`).
* `RcSearch`    — pagination and `semantic_search` of
  `src/rust-core/search/src/lib.rs` (`execute_search`).
* `Graph`       — the relationship store of
  `src/backend/database/graph_store.rs` (`store_relationship`,
  `delete_relationship` and their secondary indices).
* `Extract`     — the overlap / duplicate resolution passes of
  `src/rust-core/ingestion/src/extractors.rs`.
* `Ingest`      — `IngestionEngine::create_chunks` of
  `src/rust-core/ingestion/src/lib.rs`.

Modelling conventions, used throughout:

* Rust `HashMap` / `HashSet` values are modelled either as Lean functions
  into `Option` (when only pointwise facts are needed) or as association
  lists (when the source iterates over the container).  The per-key updates
  performed by the source are independent across distinct keys, so the
  iteration order of the hash containers never influences the final state.
* Rust `f64` scores and confidences are modelled as `ℚ`.  The source only
  adds, multiplies, divides and compares values that are exactly
  representable, so no rounding behaviour is lost.
* Rust `String::len` is the UTF-8 byte length; it is modelled by `blen`.
  Character-wise operations work on `String.data : List Char`.
* `char::is_alphanumeric` / `to_lowercase` are modelled by the ASCII
  `Char.isAlphanum` / `Char.toLower`; every input appearing in a theorem
  below is ASCII, where the two agree.
* Nondeterministic UUID fields (`Uuid::new_v4`) are omitted from the
  embedded records: no claim mentions them and no embedded operation
  reads them.
-/

/-- UTF-8 byte length of a string, the Rust `str::len`. -/
def blen (s : String) : ℕ := (s.data.map Char.utf8Size).sum

/-- Lookup in an association-list map, the Rust `HashMap::get`. -/
def assocGet {β : Type} (l : List (String × β)) (k : String) : Option β :=
  match l with
  | [] => none
  | (k2, v) :: rest => if k2 = k then some v else assocGet rest k

/-- Insert-or-replace in an association-list map, the Rust
`HashMap::insert` (an existing binding keeps its position, a new one is
appended; hash maps do not observe the order, so any deterministic
placement is a faithful model). -/
def assocUpd {β : Type} (l : List (String × β)) (k : String) (v : β) : List (String × β) :=
  match l with
  | [] => [(k, v)]
  | (k2, v2) :: rest => if k2 = k then (k, v) :: rest else (k2, v2) :: assocUpd rest k v

/-- Deletion from an association-list map, the Rust `HashMap::remove`. -/
def assocDel {β : Type} (l : List (String × β)) (k : String) : List (String × β) :=
  l.filter (fun p => p.1 ≠ k)

/-- Worker for `splitWhitespaceL`: `acc` holds the current word, reversed. -/
def splitWsGo : List Char → List Char → List (List Char)
  | [], acc => if acc.isEmpty then [] else [acc.reverse]
  | c :: cs, acc =>
    if c.isWhitespace then
      if acc.isEmpty then splitWsGo cs [] else acc.reverse :: splitWsGo cs []
    else
      splitWsGo cs (c :: acc)

/-- The Rust `str::split_whitespace`: maximal runs of non-whitespace
characters, with empty runs dropped. -/
def splitWhitespaceL (cs : List Char) : List (List Char) := splitWsGo cs []

namespace LibSearch

/-- `Document` of `src/libs/search/src/lib.rs`. -/
structure Document where
  id : String
  title : String
  content : String
  createdAt : ℤ
  size : ℕ
  metadata : List (String × String)

/-- `IndexedDocument` of `src/libs/search/src/lib.rs`.  The two hash maps
are kept as association lists with pairwise-distinct keys (built by
`calculateTermFrequencies` / `buildWordPositions`), because
`add_document` and `remove_document` iterate over their key sets. -/
structure IndexedDocument where
  document : Document
  termFrequencies : List (String × ℚ)
  wordPositions : List (String × List ℕ)

/-- The `SearchEngine` fields of `src/libs/search/src/lib.rs`; the three
hash maps are modelled as association lists (the fuzzy mode iterates over
the keys of `inverted_index`), the `HashSet` of document ids per term as a
duplicate-free list. -/
structure Engine where
  documents : List (String × IndexedDocument)
  invertedIndex : List (String × List String)
  documentFrequencies : List (String × ℕ)
  totalDocuments : ℕ

/-- The stopword list installed by `SearchEngine::new`. -/
def stopwords : List String :=
  ["the", "and", "or", "but", "in", "on", "at", "to", "for", "of", "with", "by", "a", "an"]

/-- `SearchEngine::new`. -/
def Engine.new : Engine :=
  { documents := []
    invertedIndex := []
    documentFrequencies := []
    totalDocuments := 0 }

/-- `str::trim_matches(|c| !c.is_alphanumeric())`: strip non-alphanumeric
characters from both ends. -/
def trimNonAlnum (cs : List Char) : List Char :=
  ((cs.dropWhile (fun c => !c.isAlphanum)).reverse.dropWhile (fun c => !c.isAlphanum)).reverse

/-- `SearchEngine::tokenize`: lowercase, split on whitespace, trim
non-alphanumeric characters, drop empties and stopwords. -/
def tokenize (text : String) : List String :=
  (((splitWhitespaceL (text.data.map Char.toLower)).map trimNonAlnum).filter
      (fun w => !w.isEmpty && !stopwords.contains ⟨w⟩)).map (fun w => (⟨w⟩ : String))

/-- One step of the counting loop of `calculate_term_frequencies`
(`*tf.entry(token).or_insert(0.0) += 1.0`), on an association list. -/
def bumpCount (l : List (String × ℕ)) (t : String) : List (String × ℕ) :=
  match l with
  | [] => [(t, 1)]
  | (k, c) :: rest => if k = t then (k, c + 1) :: rest else (k, c) :: bumpCount rest t

/-- `SearchEngine::calculate_term_frequencies`: token counts normalized by
the total token count. -/
def calculateTermFrequencies (tokens : List String) : List (String × ℚ) :=
  let counts := tokens.foldl bumpCount []
  counts.map (fun p => (p.1, (p.2 : ℚ) / (tokens.length : ℚ)))

/-- One step of the loop of `build_word_positions`. -/
def pushPos (l : List (String × List ℕ)) (t : String) (i : ℕ) : List (String × List ℕ) :=
  match l with
  | [] => [(t, [i])]
  | (k, ps) :: rest => if k = t then (k, ps ++ [i]) :: rest else (k, ps) :: pushPos rest t i

/-- `SearchEngine::build_word_positions`. -/
def buildWordPositions (tokens : List String) : List (String × List ℕ) :=
  (tokens.enum.foldl (fun acc p => pushPos acc p.2 p.1) [])

/-- `HashSet::insert` on a list-modelled set. -/
def setInsert (l : List String) (x : String) : List String :=
  if x ∈ l then l else l ++ [x]

/-- The per-term update of `add_document`: insert the document id into the
posting set of the term and its document frequency counter. -/
def addTerm (e : Engine) (docId : String) (term : String) : Engine :=
  { e with
    invertedIndex := assocUpd e.invertedIndex term
      (setInsert ((assocGet e.invertedIndex term).getD []) docId)
    documentFrequencies := assocUpd e.documentFrequencies term
      (((assocGet e.documentFrequencies term).getD 0) + 1) }

/-- `SearchEngine::add_document`.  The source always returns `Ok(())`, so
only the state is modelled. -/
def addDocument (e : Engine) (document : Document) : Engine :=
  let docId := document.id
  let contentTokens := tokenize document.content
  let titleTokens := tokenize document.title
  let allTokens := contentTokens ++ titleTokens
  let termFrequencies := calculateTermFrequencies allTokens
  let wordPositions := buildWordPositions allTokens
  let e1 := (termFrequencies.map Prod.fst).foldl (fun acc t => addTerm acc docId t) e
  let indexedDoc : IndexedDocument :=
    { document := document, termFrequencies := termFrequencies, wordPositions := wordPositions }
  { e1 with
    documents := assocUpd e1.documents docId indexedDoc
    totalDocuments :=
      if (assocGet e1.documents docId).isNone then e1.totalDocuments + 1
      else e1.totalDocuments }

/-- The per-term update of `remove_document`: drop the document id from
the posting set (removing the term when the set empties), decrement the
document frequency (removing the term when it reaches zero). -/
def removeTerm (e : Engine) (docId : String) (term : String) : Engine :=
  let e1 :=
    match assocGet e.invertedIndex term with
    | none => e
    | some docSet =>
      let docSet := docSet.filter (fun x => x ≠ docId)
      if docSet.isEmpty then { e with invertedIndex := assocDel e.invertedIndex term }
      else { e with invertedIndex := assocUpd e.invertedIndex term docSet }
  match assocGet e1.documentFrequencies term with
  | none => e1
  | some count =>
    let count := count - 1
    if count = 0 then
      { e1 with documentFrequencies := assocDel e1.documentFrequencies term }
    else { e1 with documentFrequencies := assocUpd e1.documentFrequencies term count }

/-- `SearchEngine::remove_document`: `Err` (with the not-found message)
when the id is absent, otherwise remove the stored document, decrement
`total_documents`, and undo the per-term index entries.  The result pair
is (returned `Result`, state after the call); the source formats the
error as `Document with ID <id> not found` (the id in single quotes). -/
def removeDocument (e : Engine) (documentId : String) :
    (Except String Unit) × Engine :=
  match assocGet e.documents documentId with
  | none => (Except.error ("Document with ID " ++ documentId ++ " not found"), e)
  | some indexedDoc =>
    let e1 := { e with documents := assocDel e.documents documentId
                       totalDocuments := e.totalDocuments - 1 }
    (Except.ok (),
      (indexedDoc.termFrequencies.map Prod.fst).foldl
        (fun acc t => removeTerm acc documentId t) e1)

end LibSearch

namespace LibSearch

/-- The textbook Levenshtein distance on character lists (specification
side): Mathlib `levenshtein` with the unit cost structure. -/
def levSpecL (xs ys : List Char) : ℕ := levenshtein Levenshtein.defaultCost xs ys

lemma levSpecL_nil_left (ys : List Char) : levSpecL [] ys = ys.length := by
  induction ys with
  | nil => simp [levSpecL]
  | cons y ys ih =>
    simp only [levSpecL] at ih ⊢
    rw [levenshtein_nil_cons, ih]
    simp [List.length_cons]; omega

lemma levSpecL_nil_right (xs : List Char) : levSpecL xs [] = xs.length := by
  induction xs with
  | nil => simp [levSpecL]
  | cons x xs ih =>
    simp only [levSpecL] at ih ⊢
    rw [levenshtein_cons_nil, ih]
    simp [List.length_cons]; omega

lemma levSpecL_cons_cons (x y : Char) (xs ys : List Char) :
    levSpecL (x :: xs) (y :: ys) =
      min (levSpecL xs (y :: ys) + 1)
        (min (levSpecL (x :: xs) ys + 1)
          (levSpecL xs ys + if x = y then 0 else 1)) := by
  simp only [levSpecL, levenshtein_cons_cons, Levenshtein.defaultCost_delete,
    Levenshtein.defaultCost_insert, Levenshtein.defaultCost_substitute]
  omega

set_option maxHeartbeats 1600000 in
lemma levSpecL_snoc (x y : Char) :
    ∀ (n : ℕ) (xs ys : List Char), xs.length + ys.length ≤ n →
      levSpecL (xs ++ [x]) (ys ++ [y]) =
        min (levSpecL xs (ys ++ [y]) + 1)
          (min (levSpecL (xs ++ [x]) ys + 1)
            (levSpecL xs ys + if x = y then 0 else 1)) := by
  intro n
  induction n with
  | zero =>
    intro xs ys h
    have hxs : xs = [] := by cases xs <;> simp_all
    have hys : ys = [] := by cases ys <;> simp_all
    subst hxs; subst hys
    simp only [List.nil_append, levSpecL_cons_cons, levSpecL_nil_left, levSpecL_nil_right]
    try omega
  | succ n ih =>
    intro xs ys h
    match xs, ys with
    | [], [] =>
      simp only [List.nil_append, levSpecL_cons_cons, levSpecL_nil_left, levSpecL_nil_right]
      try omega
    | [], y' :: ys'' =>
      have h1 := ih [] ys''
        (by simp only [List.length_cons, List.length_nil] at h ⊢; omega)
      simp only [List.nil_append, List.cons_append] at h1 ⊢
      rw [levSpecL_cons_cons x y' [] (ys'' ++ [y]), levSpecL_cons_cons x y' [] ys'', h1]
      simp only [levSpecL_nil_left, levSpecL_nil_right, List.length_append,
        List.length_cons, List.length_nil]
      omega
    | x' :: xs'', [] =>
      have h1 := ih xs'' []
        (by simp only [List.length_cons, List.length_nil] at h ⊢; omega)
      simp only [List.nil_append, List.cons_append] at h1 ⊢
      rw [levSpecL_cons_cons x' y (xs'' ++ [x]) [], levSpecL_cons_cons x' y xs'' [], h1]
      simp only [levSpecL_nil_left, levSpecL_nil_right, List.length_append,
        List.length_cons, List.length_nil]
      omega
    | x' :: xs'', y' :: ys'' =>
      have h1 := ih xs'' (y' :: ys'')
        (by simp only [List.length_cons, List.length_nil] at h ⊢; omega)
      have h2 := ih (x' :: xs'') ys''
        (by simp only [List.length_cons, List.length_nil] at h ⊢; omega)
      have h3 := ih xs'' ys''
        (by simp only [List.length_cons, List.length_nil] at h ⊢; omega)
      simp only [List.cons_append] at h1 h2 h3 ⊢
      rw [levSpecL_cons_cons x' y' (xs'' ++ [x]) (ys'' ++ [y])]
      rw [levSpecL_cons_cons x' y' xs'' (ys'' ++ [y])]
      rw [levSpecL_cons_cons x' y' (xs'' ++ [x]) ys'']
      rw [levSpecL_cons_cons x' y' xs'' ys'']
      rw [h1]
      rw [h2]
      rw [h3]
      generalize levSpecL xs'' (y' :: (ys'' ++ [y])) = A1
      generalize levSpecL (xs'' ++ [x]) (y' :: ys'') = A2
      generalize levSpecL xs'' (y' :: ys'') = A3
      generalize levSpecL (x' :: xs'') (ys'' ++ [y]) = B1
      generalize levSpecL (x' :: (xs'' ++ [x])) ys'' = B2
      generalize levSpecL (x' :: xs'') ys'' = B3
      generalize levSpecL xs'' (ys'' ++ [y]) = C1
      generalize levSpecL (xs'' ++ [x]) ys'' = C2
      generalize levSpecL xs'' ys'' = C3
      generalize (if x = y then (0:ℕ) else 1) = c
      generalize (if x' = y' then (0:ℕ) else 1) = c2
      clear ih h h1 h2 h3
      refine le_antisymm ?_ ?_ <;>
        simp only [le_min_iff, min_le_iff] <;> omega

/-- The textbook Levenshtein distance is invariant under reversing both
arguments. -/
lemma levSpecL_reverse :
    ∀ (n : ℕ) (xs ys : List Char), xs.length + ys.length ≤ n →
      levSpecL xs.reverse ys.reverse = levSpecL xs ys := by
  intro n
  induction n with
  | zero =>
    intro xs ys h
    have hxs : xs = [] := by cases xs <;> simp_all
    have hys : ys = [] := by cases ys <;> simp_all
    subst hxs; subst hys; rfl
  | succ n ih =>
    intro xs ys h
    match xs, ys with
    | [], ys =>
      simp only [List.reverse_nil, levSpecL_nil_left, List.length_reverse]
    | x' :: xs'', [] =>
      simp only [List.reverse_nil, levSpecL_nil_right, List.length_reverse]
    | x' :: xs'', y' :: ys'' =>
      have h1 := ih xs'' (y' :: ys'')
        (by simp only [List.length_cons, List.length_nil] at h ⊢; omega)
      have h2 := ih (x' :: xs'') ys''
        (by simp only [List.length_cons, List.length_nil] at h ⊢; omega)
      have h3 := ih xs'' ys''
        (by simp only [List.length_cons, List.length_nil] at h ⊢; omega)
      have hs := levSpecL_snoc x' y' (xs''.length + ys''.length) xs''.reverse ys''.reverse
        (by simp only [List.length_reverse]; omega)
      simp only [List.reverse_cons] at h1 h2 ⊢
      rw [hs, h1, h2, h3]
      exact (levSpecL_cons_cons x' y' xs'' ys'').symm

/-- The dynamic-programming table of `SearchEngine::levenshtein_distance`
(`src/libs/search/src/lib.rs`, lines 493-521): `levMat a b i j` is
`matrix[i][j]` after the fill loops, defined by the recurrence each cell
is written with (base rows `matrix[i][0] = i`, `matrix[0][j] = j`; the
early returns for an empty argument coincide with these rows).  The cost
compares `a_chars[i-1]` with `b_chars[j-1]`; out-of-range `getD` defaults
are never consulted for `i ≤ |a|`, `j ≤ |b|`. -/
def levMat (a b : List Char) : ℕ → ℕ → ℕ
  | i, 0 => i
  | 0, j + 1 => j + 1
  | i + 1, j + 1 =>
    min (levMat a b i (j + 1) + 1)
      (min (levMat a b (i + 1) j + 1)
        (levMat a b i j + if a.getD i 'a' = b.getD j 'a' then 0 else 1))

/-- `SearchEngine::levenshtein_distance`: the bottom-right table entry. -/
def levenshteinDistance (a b : String) : ℕ :=
  levMat a.data b.data a.data.length b.data.length

lemma levMat_eq_spec (a b : List Char) :
    ∀ i j, i ≤ a.length → j ≤ b.length →
      levMat a b i j = levSpecL ((a.take i).reverse) ((b.take j).reverse) := by
  intro i
  induction i with
  | zero =>
    intro j hi hj
    match j with
    | 0 => simp [levMat, levSpecL]
    | j + 1 =>
      simp only [levMat, List.take_zero, List.reverse_nil, levSpecL_nil_left,
        List.length_reverse, List.length_take]
      omega
  | succ i ihi =>
    intro j hi hj
    induction j with
    | zero =>
      simp only [levMat, List.take_zero, List.reverse_nil, levSpecL_nil_right,
        List.length_reverse, List.length_take]
      omega
    | succ j ihj =>
      have hia : i < a.length := by omega
      have hjb : j < b.length := by omega
      have ha : (a.take (i + 1)).reverse = a.get ⟨i, hia⟩ :: (a.take i).reverse := by
        rw [List.take_succ]
        simp [List.getElem?_eq_getElem hia]
      have hb : (b.take (j + 1)).reverse = b.get ⟨j, hjb⟩ :: (b.take j).reverse := by
        rw [List.take_succ]
        simp [List.getElem?_eq_getElem hjb]
      have hga : a.getD i 'a' = a.get ⟨i, hia⟩ := by
        simp [List.getD_eq_getElem?_getD, List.getElem?_eq_getElem hia]
      have hgb : b.getD j 'a' = b.get ⟨j, hjb⟩ := by
        simp [List.getD_eq_getElem?_getD, List.getElem?_eq_getElem hjb]
      simp only [levMat]
      rw [ihi (j + 1) (by omega) (by omega), ihj (by omega), ihi j (by omega) (by omega),
        ha, hb, hga, hgb, levSpecL_cons_cons]

theorem levenshteinDistance_eq (a b : String) :
    levenshteinDistance a b = levSpecL a.data b.data := by
  unfold levenshteinDistance
  rw [levMat_eq_spec a.data b.data _ _ le_rfl le_rfl]
  simp only [List.take_length]
  exact levSpecL_reverse (a.data.length + b.data.length) a.data b.data le_rfl

end LibSearch

namespace LibSearch

/-- The accumulation `*scores.entry(doc_id).or_insert(0.0) += v` of
`fuzzy_search`. -/
def addScore (scores : List (String × ℚ)) (docId : String) (v : ℚ) : List (String × ℚ) :=
  assocUpd scores docId (((assocGet scores docId).getD 0) + v)

/-- The innermost loop body of `fuzzy_search` (`for doc_id in doc_ids`):
look the document up, read the term frequency (`unwrap_or(&0.0)`), and
accumulate `tf * idf * similarity` under the document id. -/
def fuzzyDocStep (e : Engine) (idf : String → ℚ) (indexTerm : String)
    (distance maxLen : ℕ) (scores : List (String × ℚ)) (docId : String) :
    List (String × ℚ) :=
  match assocGet e.documents docId with
  | none => scores
  | some indexedDoc =>
    let tf := (assocGet indexedDoc.termFrequencies indexTerm).getD 0
    addScore scores docId (tf * idf indexTerm * (1 - (distance : ℚ) / (maxLen : ℚ)))

/-- The middle loop body of `fuzzy_search` (`for index_term in
self.inverted_index.keys()`): compute the edit distance, compare against
`max_len / 3` (`max_len` is the byte length, division truncates), and on
success walk the posting set of the term. -/
def fuzzyEntryStep (e : Engine) (idf : String → ℚ) (queryTerm : String)
    (scores : List (String × ℚ)) (entry : String × List String) :
    List (String × ℚ) :=
  let indexTerm := entry.1
  let distance := levenshteinDistance queryTerm indexTerm
  let maxLen := max (blen queryTerm) (blen indexTerm)
  if distance ≤ maxLen / 3 then
    match assocGet e.invertedIndex indexTerm with
    | none => scores
    | some docIds => docIds.foldl (fuzzyDocStep e idf indexTerm distance maxLen) scores
  else scores

/-- `SearchEngine::fuzzy_search` (`src/libs/search/src/lib.rs`, lines
195-224), up to the final `build_search_results` call: the score map it
accumulates.  The query is given in tokenized form (the source first runs
`self.tokenize`), and the IDF function is a parameter: the source computes
`calculate_idf` as `ln(total_documents / df)`, a transcendental value; all
claims about the fuzzy mode concern the multiplicative structure of the
score, which is independent of the numeric value of the IDF factor. -/
def fuzzyScores (e : Engine) (idf : String → ℚ) (queryTerms : List String) :
    List (String × ℚ) :=
  queryTerms.foldl (fun scores queryTerm =>
    e.invertedIndex.foldl (fuzzyEntryStep e idf queryTerm) scores) []

/-- Specification side of the fuzzy mode, following the words of the
spec: an index term contributes to a document for a query term exactly
when the (textbook) Levenshtein distance is at most
`⌊max(|q|,|t2|)/3⌋`, and then contributes
`TF(t2,d) × IDF(t2) × (1 − dist/max_len)`; lengths are the byte lengths
the source compares. -/
def specFuzzyContribution (e : Engine) (idf : String → ℚ)
    (queryTerm indexTerm docId : String) : ℚ :=
  let distance := levSpecL queryTerm.data indexTerm.data
  let maxLen := max (blen queryTerm) (blen indexTerm)
  if distance ≤ maxLen / 3 then
    match assocGet e.documents docId with
    | none => 0
    | some indexedDoc =>
      (assocGet indexedDoc.termFrequencies indexTerm).getD 0 * idf indexTerm *
        (1 - (distance : ℚ) / (maxLen : ℚ))
  else 0

/-- Specification side of the fuzzy score of one document: the sum, over
query terms and index terms whose posting set contains the document, of
the fuzzy contributions. -/
def specFuzzyScore (e : Engine) (idf : String → ℚ) (queryTerms : List String)
    (docId : String) : ℚ :=
  (queryTerms.map (fun q =>
    (e.invertedIndex.map (fun entry =>
      if docId ∈ entry.2 then specFuzzyContribution e idf q entry.1 docId else 0)).sum)).sum

lemma assocGet_assocUpd {β : Type} (l : List (String × β)) (k x : String) (v : β) :
    assocGet (assocUpd l k v) x = if k = x then some v else assocGet l x := by
  induction l with
  | nil => by_cases h : k = x <;> simp [assocGet, assocUpd, h]
  | cons p rest ih =>
    obtain ⟨k2, v2⟩ := p
    by_cases h2 : k2 = k
    · subst h2
      by_cases h : k2 = x <;> simp [assocGet, assocUpd, h]
    · by_cases h : k2 = x
      · subst h
        have : ¬ k = k2 := fun hc => h2 hc.symm
        simp [assocGet, assocUpd, h2, this]
      · simp [assocGet, assocUpd, h2, h, ih]

lemma addScore_getD (scores : List (String × ℚ)) (docId x : String) (v : ℚ) :
    (assocGet (addScore scores docId v) x).getD 0 =
      (assocGet scores x).getD 0 + if docId = x then v else 0 := by
  unfold addScore
  rw [assocGet_assocUpd]
  by_cases h : docId = x
  · subst h; simp
  · simp [h]

/-- Generic accumulation lemma: if each step of a fold adds a fixed
per-item contribution to the value stored under `d`, the fold adds the
sum of the contributions. -/
lemma foldl_getD_sum {ι : Type} (d : String)
    (step : List (String × ℚ) → ι → List (String × ℚ)) (contrib : ι → ℚ)
    (hstep : ∀ sc i, (assocGet (step sc i) d).getD 0 = (assocGet sc d).getD 0 + contrib i) :
    ∀ (l : List ι) (sc : List (String × ℚ)),
      (assocGet (l.foldl step sc) d).getD 0 =
        (assocGet sc d).getD 0 + (l.map contrib).sum := by
  intro l
  induction l with
  | nil => intro sc; simp
  | cons i rest ih =>
    intro sc
    simp only [List.foldl_cons, List.map_cons, List.sum_cons]
    rw [ih, hstep]
    ring

lemma sum_ite_mem (d : String) (c : ℚ) :
    ∀ (ids : List String), ids.Nodup →
      ((ids.map (fun i => if i = d then c else 0)).sum = if d ∈ ids then c else 0) := by
  intro ids
  induction ids with
  | nil => simp
  | cons i rest ih =>
    intro hnd
    simp only [List.nodup_cons] at hnd
    simp only [List.map_cons, List.sum_cons, List.mem_cons]
    by_cases h : i = d
    · subst h
      rw [ih hnd.2]
      simp [hnd.1]
    · rw [ih hnd.2]
      have hdi : d ≠ i := fun hc => h hc.symm
      by_cases hm : d ∈ rest <;> simp [h, hm, hdi]

lemma assocGet_eq_of_mem_nodup {β : Type} (l : List (String × β)) (k : String) (v : β)
    (hmem : (k, v) ∈ l) (hnd : (l.map Prod.fst).Nodup) : assocGet l k = some v := by
  induction l with
  | nil => simp at hmem
  | cons p rest ih =>
    obtain ⟨k2, v2⟩ := p
    simp only [List.map_cons, List.nodup_cons] at hnd
    rcases List.mem_cons.mp hmem with h | h
    · obtain ⟨h1, h2⟩ := Prod.mk.injEq .. ▸ h
      simp_all [assocGet]
    · have hk : k2 ≠ k := by
        intro hc
        subst hc
        exact hnd.1 (List.mem_map.mpr ⟨(k2, v), h, rfl⟩)
      simp [assocGet, hk, ih h hnd.2]

end LibSearch

namespace LibSearch

lemma assocGet_mem {β : Type} (l : List (String × β)) (k : String) (v : β)
    (h : assocGet l k = some v) : (k, v) ∈ l := by
  induction l with
  | nil => simp [assocGet] at h
  | cons p rest ih =>
    obtain ⟨k2, v2⟩ := p
    by_cases hk : k2 = k
    · subst hk
      simp [assocGet] at h
      simp [h]
    · simp only [assocGet, hk, if_false] at h
      exact List.mem_cons_of_mem _ (ih h)

/-- The value the inner loop adds for the document `d` when it reaches
the posting of `d`: zero when `d` is not a stored document, otherwise
`tf * idf * (1 - distance/max_len)`. -/
def docContrib (e : Engine) (idf : String → ℚ) (indexTerm : String)
    (distance maxLen : ℕ) (d : String) : ℚ :=
  match assocGet e.documents d with
  | none => 0
  | some indexedDoc =>
    (assocGet indexedDoc.termFrequencies indexTerm).getD 0 * idf indexTerm *
      (1 - (distance : ℚ) / (maxLen : ℚ))

lemma fuzzyDocStep_getD (e : Engine) (idf : String → ℚ) (t : String)
    (dist maxLen : ℕ) (sc : List (String × ℚ)) (i d : String) :
    (assocGet (fuzzyDocStep e idf t dist maxLen sc i) d).getD 0 =
      (assocGet sc d).getD 0 + if i = d then docContrib e idf t dist maxLen d else 0 := by
  unfold fuzzyDocStep
  cases hgd : assocGet e.documents i with
  | none =>
    by_cases h : i = d
    · subst h; simp [docContrib, hgd]
    · simp [h]
  | some idoc =>
    rw [addScore_getD]
    by_cases h : i = d
    · subst h; simp [docContrib, hgd]
    · simp [h]

/-- The value the middle loop adds for the document `d` when it handles
one inverted-index entry. -/
def entryContrib (e : Engine) (idf : String → ℚ) (queryTerm d : String)
    (entry : String × List String) : ℚ :=
  let indexTerm := entry.1
  let distance := levenshteinDistance queryTerm indexTerm
  let maxLen := max (blen queryTerm) (blen indexTerm)
  if distance ≤ maxLen / 3 then
    match assocGet e.invertedIndex indexTerm with
    | none => 0
    | some docIds => if d ∈ docIds then docContrib e idf indexTerm distance maxLen d else 0
  else 0

lemma fuzzyEntryStep_getD (e : Engine) (idf : String → ℚ) (q d : String)
    (hsets : ∀ p ∈ e.invertedIndex, p.2.Nodup)
    (sc : List (String × ℚ)) (entry : String × List String) :
    (assocGet (fuzzyEntryStep e idf q sc entry) d).getD 0 =
      (assocGet sc d).getD 0 + entryContrib e idf q d entry := by
  unfold fuzzyEntryStep entryContrib
  by_cases hcond :
      levenshteinDistance q entry.1 ≤ max (blen q) (blen entry.1) / 3
  · simp only [hcond, if_true]
    cases hget : assocGet e.invertedIndex entry.1 with
    | none => simp
    | some docIds =>
      have hnd : docIds.Nodup := hsets _ (assocGet_mem _ _ _ hget)
      rw [foldl_getD_sum d _ _ (fun sc2 i => fuzzyDocStep_getD e idf entry.1 _ _ sc2 i d),
        sum_ite_mem _ _ _ hnd]
  · simp [hcond]

lemma fuzzyScores_getD (e : Engine) (idf : String → ℚ) (queryTerms : List String)
    (d : String) (hsets : ∀ p ∈ e.invertedIndex, p.2.Nodup) :
    (assocGet (fuzzyScores e idf queryTerms) d).getD 0 =
      (queryTerms.map (fun q =>
        (e.invertedIndex.map (entryContrib e idf q d)).sum)).sum := by
  unfold fuzzyScores
  rw [foldl_getD_sum d _ _ (fun sc q =>
    foldl_getD_sum d _ _ (fuzzyEntryStep_getD e idf q d hsets) e.invertedIndex sc)]
  simp [assocGet]

end LibSearch

namespace LibSearch

lemma entryContrib_eq_spec (e : Engine) (idf : String → ℚ) (q d : String)
    (hkeys : (e.invertedIndex.map Prod.fst).Nodup)
    (entry : String × List String) (hmem : entry ∈ e.invertedIndex) :
    entryContrib e idf q d entry =
      if d ∈ entry.2 then specFuzzyContribution e idf q entry.1 d else 0 := by
  obtain ⟨t, docIds⟩ := entry
  have hget : assocGet e.invertedIndex t = some docIds :=
    assocGet_eq_of_mem_nodup _ _ _ hmem hkeys
  unfold entryContrib specFuzzyContribution docContrib
  simp only [hget, levenshteinDistance_eq]
  by_cases hcond : levSpecL q.data t.data ≤ max (blen q) (blen t) / 3
  · simp only [hcond, if_true]
  · simp [hcond]

end LibSearch

/-- C5.  Fuzzy mode semantics: the score `fuzzy_search` accumulates for a
document equals the sum, over pairs of a query term `q` and an
inverted-index term `t2` whose posting set contains the document, of
`TF(t2,d) * IDF(t2) * (1 - dist/max_len)` when the Levenshtein distance
`dist` between `q` and `t2` is at most `⌊max(|q|,|t2|)/3⌋`, and `0`
otherwise — with the genuine (textbook) Levenshtein distance, since the
dynamic-programming table of `SearchEngine::levenshtein_distance` computes
it.  The nonemptiness hypothesis on the query terms keeps the rational
model exact: for `q = t2 = ""` the source would compute `0.0/0.0 = NaN`
(tokenization never produces empty terms); the `Nodup` hypotheses state
that posting sets are `HashSet`s and the index a `HashMap`. -/
theorem LibSearch.fuzzy_search_matches_spec (e : Engine) (idf : String → ℚ)
    (queryTerms : List String) (d : String)
    (_hq : ∀ q ∈ queryTerms, q ≠ "")
    (hkeys : (e.invertedIndex.map Prod.fst).Nodup)
    (hsets : ∀ p ∈ e.invertedIndex, p.2.Nodup) :
    (assocGet (fuzzyScores e idf queryTerms) d).getD 0 =
      specFuzzyScore e idf queryTerms d := by
  rw [fuzzyScores_getD e idf queryTerms d hsets]
  unfold specFuzzyScore
  congr 1
  apply List.map_congr_left
  intro q _
  congr 1
  apply List.map_congr_left
  intro entry hentry
  exact entryContrib_eq_spec e idf q d hkeys entry hentry

/-- A concrete one-document engine used by the C5 witness. -/
def LibSearch.wEngine : LibSearch.Engine :=
  { documents :=
      [("d1",
        { document := ⟨"d1", "", "hello", 0, 5, []⟩
          termFrequencies := [("hello", 1)]
          wordPositions := [("hello", [0])] })]
    invertedIndex := [("hello", ["d1"])]
    documentFrequencies := [("hello", 1)]
    totalDocuments := 1 }

/-- Witness for C5: a one-document engine, the query term `helo`
(distance 1 from the index term `hello`, within the threshold
`⌊5/3⌋ = 1`), evaluated through the theorem. -/
theorem LibSearch.fuzzy_search_matches_spec_witness :
    ((∀ q ∈ ["helo"], q ≠ "") ∧
      (((wEngine.invertedIndex.map Prod.fst).Nodup) ∧
        ∀ p ∈ wEngine.invertedIndex, p.2.Nodup)) ∧
    (assocGet (fuzzyScores wEngine (fun _ => 1) ["helo"]) "d1").getD 0 =
      specFuzzyScore wEngine (fun _ => 1) ["helo"] "d1" :=
  ⟨⟨by decide, by decide, by decide⟩,
    LibSearch.fuzzy_search_matches_spec wEngine (fun _ => 1) ["helo"] "d1"
      (by decide) (by decide) (by decide)⟩

/-- Contiguous slice `l[a..b]` of a Rust `Vec`, for `a ≤ b ≤ l.len()`. -/
def listSlice {α : Type} (l : List α) (a b : ℕ) : List α := (l.take b).drop a

namespace LibSearch

/-- `SearchMode` of `src/libs/search/src/lib.rs`. -/
inductive SearchMode where
  | Standard | Fuzzy | Semantic | Boolean | Wildcard
deriving DecidableEq

/-- `SortBy` of `src/libs/search/src/lib.rs`. -/
inductive SortBy where
  | Relevance | Date | Title | Size
deriving DecidableEq

/-- `SearchQuery` of `src/libs/search/src/lib.rs`. -/
structure SearchQuery where
  query : String
  filters : List (String × String)
  limit : Option ℕ
  offset : Option ℕ
  sortBy : Option SortBy
  searchMode : SearchMode

/-- `MatchType` of `src/libs/search/src/lib.rs`. -/
inductive MatchType where
  | Exact | Fuzzy | Semantic | Partial
deriving DecidableEq

/-- `MatchPosition` of `src/libs/search/src/lib.rs`; the `start`/`end`
fields are renamed `startPos`/`endPos` (`end` is a Lean keyword). -/
structure MatchPosition where
  startPos : ℕ
  endPos : ℕ
  field : String
  matchType : MatchType
deriving DecidableEq

/-- `SearchResult` of `src/libs/search/src/lib.rs`. -/
structure SearchResult where
  documentId : String
  title : String
  contentSnippet : String
  score : ℚ
  matchPositions : List MatchPosition
  metadata : List (String × String)

/-- `SearchEngine::semantic_search` (`src/libs/search/src/lib.rs`, lines
226-229): unconditionally an error. -/
def semanticSearch (_e : Engine) (_query : SearchQuery) :
    Except String (List SearchResult) :=
  Except.error "Semantic search not implemented in mock version"

/-- The pagination tail of `SearchEngine::build_search_results`
(`src/libs/search/src/lib.rs`, lines 352-361), applied to the sorted
result list: default offset `0`, default limit `results.len()`, slice
`[offset, min(offset+limit, len))`, and an empty list when the offset is
out of range. -/
def buildSearchResultsPaginate (results : List SearchResult)
    (offset? limit? : Option ℕ) : List SearchResult :=
  let offset := offset?.getD 0
  let limit := limit?.getD results.length
  let stop := min (offset + limit) results.length
  if offset < results.length then listSlice results offset stop else []

end LibSearch

namespace RcSearch

/-- `SearchFilters` of `src/rust-core/search/src/lib.rs`; the date range
is a pair of optional Unix timestamps. -/
structure SearchFilters where
  entityTypes : Option (List String)
  documentTypes : Option (List String)
  dateRange : Option (Option ℤ × Option ℤ)
  fileTypes : Option (List String)
  sourceTypes : Option (List String)

/-- `SearchOptions` of `src/rust-core/search/src/lib.rs`. -/
structure SearchOptions where
  limit : Option ℕ
  offset : Option ℕ
  includeSnippets : Bool
  highlightMatches : Bool
  fuzzyMatching : Bool
  semanticSearch : Bool
  boostRecent : Bool

/-- `SearchResultType` of `src/rust-core/search/src/lib.rs`. -/
inductive SearchResultType where
  | Document | Entity | Chunk
deriving DecidableEq

/-- `TextHighlight` of `src/rust-core/search/src/lib.rs` (`start`/`end`
renamed `startPos`/`endPos`). -/
structure TextHighlight where
  startPos : ℕ
  endPos : ℕ
  text : String
deriving DecidableEq

/-- `SearchResult` of `src/rust-core/search/src/lib.rs` (the JSON
metadata bag is omitted: no embedded operation reads it). -/
structure SearchResult where
  id : String
  resultType : SearchResultType
  title : String
  content : Option String
  snippet : Option String
  score : ℚ
  highlights : List TextHighlight

/-- `SearchEngine::semantic_search` of `src/rust-core/search/src/lib.rs`
(lines 418-428): logs and returns `Ok(Vec::new())` — an empty result
list with success, not an error. -/
def semanticSearch (_query : String) (_filters : SearchFilters)
    (_options : SearchOptions) : Except String (List SearchResult) :=
  Except.ok []

/-- The pagination step of `SearchEngine::execute_search`
(`src/rust-core/search/src/lib.rs`, lines 207-216): default limit `20`,
default offset `0`, slice `[offset, min(offset+limit, len))`, clearing
the list when the offset is out of range. -/
def executeSearchPaginate (results : List SearchResult)
    (limit? offset? : Option ℕ) : List SearchResult :=
  let limit := limit?.getD 20
  let offset := offset?.getD 0
  if offset < results.length then
    listSlice results offset (min (offset + limit) results.length)
  else []

end RcSearch

lemma listSlice_window {α : Type} (l : List α) (a b : ℕ) (h : a < l.length) :
    listSlice l a (min (a + b) l.length) = (l.drop a).take b := by
  unfold listSlice
  rw [List.drop_take]
  apply List.take_eq_take.mpr
  simp only [List.length_drop]
  omega

/-- C1.  Ingestion into the index is not idempotent in
`SearchEngine::add_document` (`src/libs/search/src/lib.rs`, lines
98-135): adding the identical document twice keeps the document count at
`1` and the posting set `{d1}` (a `HashSet` insert), but the per-term
`document_frequencies` counter is incremented unconditionally and reaches
`2`, so the state after the second add differs from the state after the
first.  This contradicts the spec (`two ingestions with equal checksum
MUST be idempotent`, and invariant 4, `df(t) = |{d : postings(t,d) ≠ ∅}|`). -/
theorem LibSearch.add_document_not_idempotent :
    assocGet (addDocument Engine.new ⟨"d1", "", "hello world", 0, 11, []⟩).documentFrequencies
        "hello" = some 1 ∧
    assocGet (addDocument (addDocument Engine.new ⟨"d1", "", "hello world", 0, 11, []⟩)
        ⟨"d1", "", "hello world", 0, 11, []⟩).documentFrequencies "hello" = some 2 ∧
    (addDocument (addDocument Engine.new ⟨"d1", "", "hello world", 0, 11, []⟩)
        ⟨"d1", "", "hello world", 0, 11, []⟩).totalDocuments = 1 ∧
    (addDocument (addDocument Engine.new ⟨"d1", "", "hello world", 0, 11, []⟩)
        ⟨"d1", "", "hello world", 0, 11, []⟩).invertedIndex =
      (addDocument Engine.new ⟨"d1", "", "hello world", 0, 11, []⟩).invertedIndex ∧
    (addDocument (addDocument Engine.new ⟨"d1", "", "hello world", 0, 11, []⟩)
        ⟨"d1", "", "hello world", 0, 11, []⟩).documentFrequencies ≠
      (addDocument Engine.new ⟨"d1", "", "hello world", 0, 11, []⟩).documentFrequencies := by
  refine ⟨?_, ?_, ?_, ?_, ?_⟩ <;> decide

/-- C10.  `SearchEngine::remove_document` on an id that is not stored
returns the not-found error and leaves the whole engine state unchanged
(`src/libs/search/src/lib.rs`, lines 137-162: the mutating branch is
only entered when `documents.remove` finds the id). -/
theorem LibSearch.remove_document_unknown_is_noop (e : Engine) (docId : String)
    (h : assocGet e.documents docId = none) :
    removeDocument e docId =
      (Except.error ("Document with ID " ++ docId ++ " not found"), e) := by
  unfold removeDocument
  rw [h]

/-- Witness for C10: removing `x` from the fresh engine. -/
theorem LibSearch.remove_document_unknown_is_noop_witness :
    assocGet Engine.new.documents "x" = none ∧
    removeDocument Engine.new "x" =
      (Except.error ("Document with ID " ++ "x" ++ " not found"), Engine.new) :=
  ⟨rfl, LibSearch.remove_document_unknown_is_noop Engine.new "x" rfl⟩

/-- C6 (amended part).  In `src/libs/search/src/lib.rs` every
Semantic-mode query is answered with an error (lines 226-229; the
`search` dispatcher at lines 164-172 routes `SearchMode::Semantic`
here). -/
theorem LibSearch.semantic_search_always_errors :
    ∀ (e : Engine) (query : SearchQuery),
      semanticSearch e query =
        Except.error "Semantic search not implemented in mock version" :=
  fun _ _ => rfl

/-- C6 counterexample.  The claim says Semantic mode never returns a
result list; but `semantic_search` of `src/rust-core/search/src/lib.rs`
returns `Ok(Vec::new())` — a successful empty result list, not an
error — for this (and every) query. -/
theorem RcSearch.semantic_search_returns_ok_empty :
    RcSearch.semanticSearch "machine learning" ⟨none, none, none, none, none⟩
        ⟨some 20, some 0, true, true, false, true, true⟩ = Except.ok [] ∧
    ∀ msg, (Except.ok [] : Except String (List RcSearch.SearchResult)) ≠ Except.error msg :=
  ⟨rfl, fun _ h => Except.noConfusion h⟩

/-- C9.  Pagination never errors and is exactly the slice
`[offset, offset+limit)` of the ranked results: in both engines the
returned page equals `drop offset` then `take limit` of the ranked list
(with the defaults of each source for missing options), and an out-of-range
offset yields the empty list. -/
theorem Pagination.slice_semantics :
    (∀ (results : List LibSearch.SearchResult) (offset? limit? : Option ℕ),
      LibSearch.buildSearchResultsPaginate results offset? limit? =
        (results.drop (offset?.getD 0)).take (limit?.getD results.length)) ∧
    (∀ (results : List LibSearch.SearchResult) (offset? limit? : Option ℕ),
      results.length ≤ offset?.getD 0 →
        LibSearch.buildSearchResultsPaginate results offset? limit? = []) ∧
    (∀ (results : List RcSearch.SearchResult) (limit? offset? : Option ℕ),
      RcSearch.executeSearchPaginate results limit? offset? =
        (results.drop (offset?.getD 0)).take (limit?.getD 20)) ∧
    (∀ (results : List RcSearch.SearchResult) (limit? offset? : Option ℕ),
      results.length ≤ offset?.getD 0 →
        RcSearch.executeSearchPaginate results limit? offset? = []) := by
  refine ⟨?_, ?_, ?_, ?_⟩
  · intro results offset? limit?
    unfold LibSearch.buildSearchResultsPaginate
    by_cases h : offset?.getD 0 < results.length
    · simp only [h, if_true]
      exact listSlice_window results _ _ h
    · simp only [h, if_false]
      have : results.length ≤ offset?.getD 0 := by omega
      rw [List.drop_eq_nil_iff.mpr this, List.take_nil]
  · intro results offset? limit? h
    unfold LibSearch.buildSearchResultsPaginate
    have : ¬ offset?.getD 0 < results.length := by omega
    simp [this]
  · intro results limit? offset?
    unfold RcSearch.executeSearchPaginate
    by_cases h : offset?.getD 0 < results.length
    · simp only [h, if_true]
      exact listSlice_window results _ _ h
    · simp only [h, if_false]
      have : results.length ≤ offset?.getD 0 := by omega
      rw [List.drop_eq_nil_iff.mpr this, List.take_nil]
  · intro results limit? offset? h
    unfold RcSearch.executeSearchPaginate
    have : ¬ offset?.getD 0 < results.length := by omega
    simp [this]

/-- Witness for C9: a one-element result list with offset `5` paginates
to the empty list in both engines, through the theorem. -/
theorem Pagination.slice_semantics_witness :
    (([⟨"d1", "t", "s", 0, [], []⟩] : List LibSearch.SearchResult).length ≤
        ((some 5 : Option ℕ)).getD 0 ∧
      LibSearch.buildSearchResultsPaginate [⟨"d1", "t", "s", 0, [], []⟩] (some 5) none = []) ∧
    (([⟨"d1", .Document, "t", none, none, 0, []⟩] : List RcSearch.SearchResult).length ≤
        ((some 5 : Option ℕ)).getD 0 ∧
      RcSearch.executeSearchPaginate [⟨"d1", .Document, "t", none, none, 0, []⟩]
        none (some 5) = []) :=
  ⟨⟨by decide, Pagination.slice_semantics.2.1 [⟨"d1", "t", "s", 0, [], []⟩]
      (some 5) none (by decide)⟩,
    ⟨by decide, Pagination.slice_semantics.2.2.2 [⟨"d1", .Document, "t", none, none, 0, []⟩]
      none (some 5) (by decide)⟩⟩

namespace RcIndexer

/-- `IndexedDocument` of `src/rust-core/search/src/lib.rs` as consumed by
`FullTextIndexer`: the indexer reads only `id` and `tokens`; `entities`,
the JSON metadata and the optional embedding are never touched by it and
are omitted. -/
structure IndexedDocument where
  id : String
  title : String
  content : String
  tokens : List String

/-- `FullTextIndexer` of `src/rust-core/search/src/indexer.rs`:
`term_frequencies : term -> (doc_id -> tf)`, `document_frequencies :
term -> usize`, and the document counter, all as association lists (the
source iterates over `term_frequencies`). -/
structure FullTextIndexer where
  termFrequencies : List (String × List (String × ℚ))
  documentFrequencies : List (String × ℕ)
  documentCount : ℕ

/-- `FullTextIndexer::new`. -/
def FullTextIndexer.new : FullTextIndexer :=
  { termFrequencies := [], documentFrequencies := [], documentCount := 0 }

/-- `FullTextIndexer::remove_document` (`src/rust-core/search/src/indexer.rs`,
lines 59-91).  First pass: drop the document from every inner map,
decrementing (saturating) the `df` of each affected term and collecting
for removal the terms whose decremented `df` reached zero or whose inner
map emptied; then delete the collected terms from both maps.  Finally
`document_count` is decremented whenever it is positive — even when the
document id was not present anywhere. -/
def removeDocument (idx : FullTextIndexer) (documentId : String) : FullTextIndexer :=
  let affected := idx.termFrequencies.filter
    (fun p => (assocGet p.2 documentId).isSome)
  let termsToRemove := affected.filterMap (fun p =>
    let dfZero : Bool :=
      match assocGet idx.documentFrequencies p.1 with
      | some df => df - 1 == 0
      | none => false
    if dfZero || (assocDel p.2 documentId).isEmpty then some p.1 else none)
  let termFrequencies1 := idx.termFrequencies.map
    (fun p => (p.1, assocDel p.2 documentId))
  let documentFrequencies1 := idx.documentFrequencies.map
    (fun p => if p.1 ∈ affected.map Prod.fst then (p.1, p.2 - 1) else p)
  { termFrequencies := termFrequencies1.filter (fun p => p.1 ∉ termsToRemove)
    documentFrequencies := documentFrequencies1.filter (fun p => p.1 ∉ termsToRemove)
    documentCount :=
      if idx.documentCount > 0 then idx.documentCount - 1 else idx.documentCount }

/-- `FullTextIndexer::index_document` (`src/rust-core/search/src/indexer.rs`,
lines 28-57): remove any existing copy first, then insert the normalized
term frequency of every token and bump the `df` of each term; finally
increment the document counter. -/
def indexDocument (idx : FullTextIndexer) (document : IndexedDocument) :
    FullTextIndexer :=
  let idx := removeDocument idx document.id
  let termCounts := document.tokens.foldl LibSearch.bumpCount []
  let totalTerms := document.tokens.length
  let idx := termCounts.foldl (fun acc p =>
    let tf : ℚ := (p.2 : ℚ) / (totalTerms : ℚ)
    { acc with
      termFrequencies := assocUpd acc.termFrequencies p.1
        (assocUpd ((assocGet acc.termFrequencies p.1).getD []) document.id tf)
      documentFrequencies := assocUpd acc.documentFrequencies p.1
        (((assocGet acc.documentFrequencies p.1).getD 0) + 1) }) idx
  { idx with documentCount := idx.documentCount + 1 }

end RcIndexer

/-- C7.  `unindex` does not reverse `index`: in `FullTextIndexer`,
`remove_document` decrements `document_count` whenever the counter is
positive, even when the removed id is unknown — and `index_document`
begins with such a removal.  Starting from a state with one indexed
document (count 1), indexing a second document first decrements the
counter for the absent id (1 to 0) and then increments it (0 to 1);
removing that second document brings the counter to 0 although the first
document and all its postings are still present.  The state after
add-then-remove therefore differs from the starting state, refuting the
claim that it is restored. -/
theorem RcIndexer.index_then_remove_does_not_restore :
    (RcIndexer.indexDocument RcIndexer.FullTextIndexer.new
        ⟨"1", "", "", ["hello", "world"]⟩).documentCount = 1 ∧
    (RcIndexer.removeDocument
        (RcIndexer.indexDocument
          (RcIndexer.indexDocument RcIndexer.FullTextIndexer.new
            ⟨"1", "", "", ["hello", "world"]⟩)
          ⟨"2", "", "", ["foo"]⟩)
        "2").documentCount = 0 ∧
    ((RcIndexer.removeDocument
        (RcIndexer.indexDocument
          (RcIndexer.indexDocument RcIndexer.FullTextIndexer.new
            ⟨"1", "", "", ["hello", "world"]⟩)
          ⟨"2", "", "", ["foo"]⟩)
        "2").termFrequencies.map Prod.fst) =
      ((RcIndexer.indexDocument RcIndexer.FullTextIndexer.new
          ⟨"1", "", "", ["hello", "world"]⟩).termFrequencies.map Prod.fst) := by
  refine ⟨?_, ?_, ?_⟩ <;> decide

/-- Lexicographic (code-point) order on character lists; agrees with the
byte-wise `Ord` on Rust `String` because UTF-8 preserves code-point
order. -/
def charListLt : List Char → List Char → Bool
  | [], [] => false
  | [], _ :: _ => true
  | _ :: _, [] => false
  | a :: as, b :: bs => if a < b then true else if b < a then false else charListLt as bs

/-- Rust `Vec::<String>::sort`: stable ascending sort. -/
def sortStrings (l : List String) : List String :=
  List.insertionSort (fun a b => charListLt b.data a.data = false) l

/-- Rust `Vec::dedup`: collapse adjacent equal elements. -/
def dedupAdj : List String → List String
  | [] => []
  | [x] => [x]
  | x :: y :: rest => if x = y then dedupAdj (y :: rest) else x :: dedupAdj (y :: rest)

namespace Graph

/-- `EntityRelationship` of `src/backend/database/graph_store.rs` (the
JSON metadata bag is omitted: no embedded operation reads it). -/
structure EntityRelationship where
  id : String
  sourceEntityId : String
  targetEntityId : String
  relationshipType : String
  strength : ℚ
  confidence : ℚ
  createdAt : ℤ

/-- The `relationships` column family of `GraphDatabase`.  The source
stores primary records under the relationship id and the three secondary
indices under keys prefixed `source:`, `target:` and `type:` in the same
keyspace; the four prefix-disjoint key classes are modelled as four
association-list maps (ids are UUIDs, which never start with a prefix). -/
structure GraphDatabase where
  rels : List (String × EntityRelationship)
  sourceIdx : List (String × List String)
  targetIdx : List (String × List String)
  typeIdx : List (String × List String)

/-- `GraphDatabase` with an empty `relationships` column family. -/
def GraphDatabase.new : GraphDatabase :=
  { rels := [], sourceIdx := [], targetIdx := [], typeIdx := [] }

/-- `GraphDatabase::get_entity_relationships`
(`src/backend/database/graph_store.rs`, lines 129-153): concatenate the
lists stored under the `source:` and `target:` keys of the entity, sort,
and deduplicate. -/
def getEntityRelationships (db : GraphDatabase) (entityId : String) : List String :=
  dedupAdj (sortStrings
    ((assocGet db.sourceIdx entityId).getD [] ++ (assocGet db.targetIdx entityId).getD []))

/-- `GraphDatabase::get_relationships_by_type` (lines 155-166). -/
def getRelationshipsByType (db : GraphDatabase) (relationshipType : String) : List String :=
  (assocGet db.typeIdx relationshipType).getD []

/-- `GraphDatabase::store_relationship_indexes` (lines 88-113): each of
the three index values is rebuilt by reading the current (already
partially updated) state through `get_entity_relationships` /
`get_relationships_by_type` and appending the new id. -/
def storeRelationshipIndexes (db : GraphDatabase) (r : EntityRelationship) :
    GraphDatabase :=
  let sourceRels := getEntityRelationships db r.sourceEntityId ++ [r.id]
  let db := { db with sourceIdx := assocUpd db.sourceIdx r.sourceEntityId sourceRels }
  let targetRels := getEntityRelationships db r.targetEntityId ++ [r.id]
  let db := { db with targetIdx := assocUpd db.targetIdx r.targetEntityId targetRels }
  let typeRels := getRelationshipsByType db r.relationshipType ++ [r.id]
  { db with typeIdx := assocUpd db.typeIdx r.relationshipType typeRels }

/-- `GraphDatabase::store_relationship` (lines 73-86): write the primary
record, then the three secondary indices. -/
def storeRelationship (db : GraphDatabase) (r : EntityRelationship) : GraphDatabase :=
  storeRelationshipIndexes { db with rels := assocUpd db.rels r.id r } r

/-- `GraphDatabase::remove_relationship_indexes` (lines 235-260):
sequentially rewrite the three index values, filtering the id out of the
merged `get_entity_relationships` view. -/
def removeRelationshipIndexes (db : GraphDatabase) (r : EntityRelationship) :
    GraphDatabase :=
  let sourceRels := (getEntityRelationships db r.sourceEntityId).filter (fun i => i ≠ r.id)
  let db := { db with sourceIdx := assocUpd db.sourceIdx r.sourceEntityId sourceRels }
  let targetRels := (getEntityRelationships db r.targetEntityId).filter (fun i => i ≠ r.id)
  let db := { db with targetIdx := assocUpd db.targetIdx r.targetEntityId targetRels }
  let typeRels := (getRelationshipsByType db r.relationshipType).filter (fun i => i ≠ r.id)
  { db with typeIdx := assocUpd db.typeIdx r.relationshipType typeRels }

/-- `GraphDatabase::delete_relationship` (lines 220-233). -/
def deleteRelationship (db : GraphDatabase) (relationshipId : String) : GraphDatabase :=
  let db :=
    match assocGet db.rels relationshipId with
    | some r => removeRelationshipIndexes db r
    | none => db
  { db with rels := assocDel db.rels relationshipId }

end Graph

/-- C2 refutation.  Graph index coherence fails: storing `r1 : A -> B`
and then `r2 : B -> A` puts `r1` into the `source:` list of `B`, although
the source of `r1` is `A` (and symmetrically `r2` into the `target:` list
of `A`).  The cause: `store_relationship_indexes` rebuilds the `source:`
value from `get_entity_relationships`, which merges the `source:` and
`target:` lists of the entity. -/
theorem Graph.source_index_polluted_by_target :
    (assocGet (Graph.storeRelationship
        (Graph.storeRelationship Graph.GraphDatabase.new
          ⟨"r1", "A", "B", "knows", 1, 1, 0⟩)
        ⟨"r2", "B", "A", "knows", 1, 1, 0⟩).sourceIdx "B") = some ["r1", "r2"] ∧
    ((assocGet (Graph.storeRelationship
        (Graph.storeRelationship Graph.GraphDatabase.new
          ⟨"r1", "A", "B", "knows", 1, 1, 0⟩)
        ⟨"r2", "B", "A", "knows", 1, 1, 0⟩).rels "r1").map
      Graph.EntityRelationship.sourceEntityId) = some "A" := by
  refine ⟨?_, ?_⟩ <;> decide

namespace Extract

/-- `ExtractedEntity` of `src/rust-core/ingestion/src/lib.rs` as consumed
by the extractor passes (the random UUID and the JSON properties bag are
omitted: the passes never read them). -/
structure ExtractedEntity where
  entityType : String
  name : String
  confidence : ℚ
  startPosition : ℕ
  endPosition : ℕ

/-- The comparator of both resolution passes
(`src/rust-core/ingestion/src/extractors.rs`, lines 149-152 and 310-313):
ascending start position, then descending confidence
(`b.confidence.partial_cmp(&a.confidence)`). -/
def entCmp (a b : ExtractedEntity) : Ordering :=
  (compare a.startPosition b.startPosition).then (compare b.confidence a.confidence)

/-- Rust `Vec::sort_by` with `entCmp`: a stable ascending sort
(insertion sort into the first position that is not strictly earlier). -/
def sortCandidates (l : List ExtractedEntity) : List ExtractedEntity :=
  List.insertionSort (fun a b => entCmp a b ≠ Ordering.gt) l

/-- Span intersection as the source tests it:
`entity.start < existing.end && entity.end > existing.start`. -/
def overlapsSpans (a b : ExtractedEntity) : Prop :=
  a.startPosition < b.endPosition ∧ a.endPosition > b.startPosition

/-- Boolean form of `overlapsSpans`. -/
def overlapsB (a b : ExtractedEntity) : Bool :=
  decide (a.startPosition < b.endPosition) && decide (a.endPosition > b.startPosition)

/-- The overlap-resolution pass of `RegexEntityExtractor::extract_entities`
(`src/rust-core/ingestion/src/extractors.rs`, lines 148-163): sort by
(start ascending, confidence descending), then keep each candidate that
does not overlap an already kept one. -/
def filterOverlaps (l : List ExtractedEntity) : List ExtractedEntity :=
  (sortCandidates l).foldl
    (fun kept e => if kept.any (fun existing => overlapsB e existing) then kept
      else kept ++ [e]) []

/-- The duplicate test of `CompositeEntityExtractor::extract_entities`
(lines 317-321): same name, same type, and start positions within 10
characters (as `i32` values). -/
def isDuplicateOf (existing e : ExtractedEntity) : Bool :=
  existing.name == e.name && existing.entityType == e.entityType &&
    decide (((existing.startPosition : ℤ) - (e.startPosition : ℤ)).natAbs < 10)

/-- The merge pass of `CompositeEntityExtractor::extract_entities`
(lines 300-329): sort all candidates by (start ascending, confidence
descending) and drop near-duplicates; no overlap check is performed. -/
def compositeFilter (l : List ExtractedEntity) : List ExtractedEntity :=
  (sortCandidates l).foldl
    (fun kept e => if kept.any (fun existing => isDuplicateOf existing e) then kept
      else kept ++ [e]) []

/-- `CompositeEntityExtractor::extract_entities`: concatenate the
sub-extractor outputs, then apply the merge pass. -/
def compositeExtract (subOutputs : List (List ExtractedEntity)) : List ExtractedEntity :=
  compositeFilter subOutputs.flatten

end Extract

/-- C3 refutation.  On the text `Dr. Jane Smith` the rule-based
extractor produces the PERSON candidate `Dr. Jane` with span `[0, 8)`
and confidence `0.80`, and the regex extractor produces the PERSON
candidate `Jane Smith` with span `[4, 14)` and confidence `0.60`.  The
composite merge keeps both (their names differ, so the duplicate test
never fires), and the two kept spans overlap on `[4, 8)` — the
composite output is not overlap-free. -/
theorem Extract.composite_output_overlaps :
    ((Extract.compositeExtract
        [[⟨"person", "Jane Smith", 3/5, 4, 14⟩], [⟨"person", "Dr. Jane", 4/5, 0, 8⟩]]).map
      (fun e => (e.name, e.startPosition, e.endPosition))) =
      [("Dr. Jane", 0, 8), ("Jane Smith", 4, 14)] ∧
    Extract.overlapsSpans ⟨"person", "Dr. Jane", 4/5, 0, 8⟩
      ⟨"person", "Jane Smith", 3/5, 4, 14⟩ :=
  ⟨by decide, by decide, by decide⟩

namespace Extract

lemma overlapsSpans_symm {a b : ExtractedEntity} (h : overlapsSpans a b) :
    overlapsSpans b a :=
  ⟨h.2, h.1⟩

lemma greedy_pairwise :
    ∀ (l acc : List ExtractedEntity),
      acc.Pairwise (fun a b => ¬ overlapsSpans a b) →
      (l.foldl
          (fun kept e => if kept.any (fun existing => overlapsB e existing) then kept
            else kept ++ [e]) acc).Pairwise (fun a b => ¬ overlapsSpans a b) := by
  intro l
  induction l with
  | nil => intro acc h; exact h
  | cons e rest ih =>
    intro acc h
    simp only [List.foldl_cons]
    by_cases hc : acc.any (fun existing => overlapsB e existing)
    · rw [if_pos hc]
      exact ih acc h
    · rw [if_neg hc]
      apply ih
      rw [List.pairwise_append]
      refine ⟨h, List.pairwise_singleton _ _, ?_⟩
      intro a ha b hb
      simp only [List.mem_singleton] at hb
      subst hb
      simp only [List.any_eq_true, not_exists, not_and] at hc
      intro hov
      have := hc a ha
      simp only [overlapsB, Bool.and_eq_true, decide_eq_true_eq] at this
      exact this ⟨(overlapsSpans_symm hov).1, (overlapsSpans_symm hov).2⟩

lemma greedy_sublist :
    ∀ (l acc : List ExtractedEntity),
      ∃ s, (l.foldl
          (fun kept e => if kept.any (fun existing => overlapsB e existing) then kept
            else kept ++ [e]) acc) = acc ++ s ∧ s.Sublist l := by
  intro l
  induction l with
  | nil => intro acc; exact ⟨[], by simp⟩
  | cons e rest ih =>
    intro acc
    simp only [List.foldl_cons]
    by_cases hc : acc.any (fun existing => overlapsB e existing)
    · rw [if_pos hc]
      obtain ⟨s, hs, hsub⟩ := ih acc
      exact ⟨s, hs, hsub.cons e⟩
    · rw [if_neg hc]
      obtain ⟨s, hs, hsub⟩ := ih (acc ++ [e])
      exact ⟨e :: s, by simpa using hs, hsub.cons₂ e⟩

end Extract

/-- C4 refutation.  Overlap resolution does not keep the
higher-confidence candidate: with the PERSON candidate (confidence 0.60,
span `[0, 5)`) and the overlapping EMAIL candidate (confidence 0.95,
span `[1, 3)`), the pass keeps the PERSON — the candidate with the
earlier start — and discards the strictly more confident EMAIL.  The
sort at lines 149-152 orders by start position first and consults
confidence only to break ties at equal starts. -/
theorem Extract.resolution_drops_higher_confidence :
    ((Extract.filterOverlaps
        [⟨"person", "John Smith", 3/5, 0, 5⟩, ⟨"email", "s@e.co", 19/20, 1, 3⟩]).map
      (fun e => (e.name, e.startPosition, e.endPosition))) = [("John Smith", 0, 5)] ∧
    Extract.overlapsSpans ⟨"person", "John Smith", 3/5, 0, 5⟩ ⟨"email", "s@e.co", 19/20, 1, 3⟩ ∧
    (3/5 : ℚ) < 19/20 :=
  ⟨by decide, ⟨by decide, by decide⟩, by norm_num⟩

/-- C4 (amended).  The overlap-resolution pass of
`RegexEntityExtractor::extract_entities` is a greedy filter over the
candidates sorted by (earlier start, then higher confidence): its output
is a subsequence of that sorted order, no two kept candidates overlap,
and of any two overlapping candidates at most one is kept — the one
encountered first in the sorted order, not the one with the higher
confidence. -/
theorem Extract.resolution_greedy_by_start_then_confidence
    (l : List Extract.ExtractedEntity) :
    (Extract.filterOverlaps l).Pairwise (fun a b => ¬ Extract.overlapsSpans a b) ∧
    (Extract.filterOverlaps l).Sublist (Extract.sortCandidates l) ∧
    ∀ a ∈ Extract.filterOverlaps l, ∀ b ∈ Extract.filterOverlaps l,
      Extract.overlapsSpans a b → a = b := by
  have hpw : (Extract.filterOverlaps l).Pairwise (fun a b => ¬ Extract.overlapsSpans a b) :=
    Extract.greedy_pairwise (Extract.sortCandidates l) [] (List.Pairwise.nil)
  refine ⟨hpw, ?_, ?_⟩
  · obtain ⟨s, hs, hsub⟩ := Extract.greedy_sublist (Extract.sortCandidates l) []
    unfold Extract.filterOverlaps
    rw [hs]
    simpa using hsub
  · intro a ha b hb hov
    by_contra hne
    have hsymm : Symmetric (fun a b : Extract.ExtractedEntity => ¬ Extract.overlapsSpans a b) :=
      fun x y hxy hyx => hxy (Extract.overlapsSpans_symm hyx)
    exact hpw.forall hsymm ha hb hne hov

/-- Witness for C4: the kept candidate trivially overlaps itself
(nonempty span), and the theorem instantiated there forces equality. -/
theorem Extract.resolution_greedy_witness :
    (⟨"person", "John Smith", 3/5, 0, 5⟩ : Extract.ExtractedEntity) ∈
        Extract.filterOverlaps [⟨"person", "John Smith", 3/5, 0, 5⟩] ∧
    (⟨"person", "John Smith", 3/5, 0, 5⟩ : Extract.ExtractedEntity) =
      ⟨"person", "John Smith", 3/5, 0, 5⟩ :=
  ⟨List.mem_singleton_self _,
    (Extract.resolution_greedy_by_start_then_confidence
        [⟨"person", "John Smith", 3/5, 0, 5⟩]).2.2
      ⟨"person", "John Smith", 3/5, 0, 5⟩ (List.mem_singleton_self _)
      ⟨"person", "John Smith", 3/5, 0, 5⟩ (List.mem_singleton_self _) ⟨by decide, by decide⟩⟩

/-- UTF-8 byte length of a character list (`blen` on `String.data`). -/
def blenL (cs : List Char) : ℕ := (cs.map Char.utf8Size).sum

/-- `Vec::<&str>::join(" ")` on character lists. -/
def joinSpaces : List (List Char) → List Char
  | [] => []
  | [w] => w
  | w :: ws => w ++ ' ' :: joinSpaces ws

namespace Ingest

/-- `IngestionConfig` of `src/rust-core/ingestion/src/lib.rs`. -/
structure IngestionConfig where
  maxFileSize : ℕ
  chunkSize : ℕ
  chunkOverlap : ℕ
  supportedExtensions : List String
  extractEntities : Bool
  extractRelationships : Bool
  ocrEnabled : Bool

/-- `DocumentChunk` of `src/rust-core/ingestion/src/lib.rs` (the random
UUID id is omitted). -/
structure DocumentChunk where
  content : String
  chunkIndex : ℕ
  startPosition : ℕ
  endPosition : ℕ
deriving DecidableEq

/-- The loop of `IngestionEngine::create_chunks`
(`src/rust-core/ingestion/src/lib.rs`, lines 269-298).  Each pass slices
`words[start_idx..end_idx]`, joins with single spaces, and records the
span `[start_position, start_position + len)` where `start_position` is
the byte length of the space-join of the first `start_idx` words plus
one separator.  The next start is `max(start_idx+1, end_idx - overlap)`
— in Rust a `usize` subtraction that panics when `overlap > end_idx`
(truncated subtraction here; the theorems below assume
`overlap < chunk_size`, which keeps the two semantics identical). -/
def createChunksGo (words : List (List Char)) (config : IngestionConfig)
    (startIdx chunkIndex : ℕ) : List DocumentChunk :=
  if h : startIdx < words.length then
    let endIdx := min (startIdx + config.chunkSize) words.length
    let chunkContent := joinSpaces ((words.take endIdx).drop startIdx)
    let startPosition :=
      if startIdx = 0 then 0 else blenL (joinSpaces (words.take startIdx)) + 1
    let next := if endIdx = words.length then words.length
      else max (startIdx + 1) (endIdx - config.chunkOverlap)
    ⟨⟨chunkContent⟩, chunkIndex, startPosition, startPosition + blenL chunkContent⟩ ::
      createChunksGo words config next (chunkIndex + 1)
  else []
termination_by words.length - startIdx
decreasing_by
  split <;> omega

/-- `IngestionEngine::create_chunks` (lines 258-301): split the content
on whitespace and emit overlapping word windows. -/
def createChunks (content : String) (config : IngestionConfig) : List DocumentChunk :=
  let words := splitWhitespaceL content.data
  if words.isEmpty then [] else createChunksGo words config 0 0

end Ingest

/-- C8 refutation.  On the content `a  b` (two spaces) with
`chunk_size = 1`, `overlap = 0`, the second chunk has text `b` and
recorded span `[2, 3)` — but in the input content byte 2 is a space and
`b` sits at `[3, 4)`: the recorded span is not the position of the
chunk text within the input, and the spans `[0,1) ∪ [2,3)` do not cover
the text.  The positions are computed against the single-space join of
the words, not against the content. -/
theorem Ingest.chunk_span_wrong_on_double_space :
    (Ingest.createChunks "a  b" ⟨104857600, 1, 0, [], true, true, false⟩).map
        (fun c => (c.content, c.startPosition, c.endPosition)) =
      [("a", 0, 1), ("b", 2, 3)] ∧
    ("a  b".data.drop 2).take 1 = [' '] ∧
    ("a  b".data.drop 3).take 1 = ['b'] := by
  refine ⟨?_, by decide, by decide⟩
  have h1 : splitWhitespaceL "a  b".data = [['a'], ['b']] := by decide
  have h2 : ([['a'], ['b']] : List (List Char)).isEmpty = false := by decide
  simp only [Ingest.createChunks, h1, h2, Bool.false_eq_true, if_false]
  rw [Ingest.createChunksGo.eq_def]
  norm_num [joinSpaces, blenL]
  rw [Ingest.createChunksGo.eq_def]
  norm_num [joinSpaces, blenL]
  rw [Ingest.createChunksGo.eq_def]
  norm_num [joinSpaces, blenL]
  decide

lemma blenL_append (xs ys : List Char) : blenL (xs ++ ys) = blenL xs + blenL ys := by
  simp [blenL]

lemma blenL_cons (c : Char) (l : List Char) : blenL (c :: l) = c.utf8Size + blenL l := by
  simp [blenL]

lemma joinSpaces_cons (w : List Char) (ws : List (List Char)) (h : ws ≠ []) :
    joinSpaces (w :: ws) = w ++ ' ' :: joinSpaces ws := by
  cases ws with
  | nil => simp at h
  | cons w2 ws2 => rfl

lemma joinSpaces_append (A B : List (List Char)) (hA : A ≠ []) (hB : B ≠ []) :
    joinSpaces (A ++ B) = joinSpaces A ++ ' ' :: joinSpaces B := by
  induction A with
  | nil => simp at hA
  | cons a A' ih =>
    cases A' with
    | nil =>
      rw [List.cons_append, List.nil_append, joinSpaces_cons a B hB]
      rfl
    | cons a2 A'' =>
      rw [List.cons_append, joinSpaces_cons a ((a2 :: A'') ++ B) (by simp),
        ih (by simp), joinSpaces_cons a (a2 :: A'') (by simp)]
      simp [List.append_assoc]

lemma splitWsGo_nonws (w : List Char) (hw : ∀ c ∈ w, c.isWhitespace = false) :
    ∀ (t acc : List Char), splitWsGo (w ++ t) acc = splitWsGo t (w.reverse ++ acc) := by
  induction w with
  | nil => simp
  | cons c w' ih =>
    intro t acc
    have hc : c.isWhitespace = false := hw c (List.mem_cons_self c w')
    rw [List.cons_append]
    show (if c.isWhitespace then _ else splitWsGo (w' ++ t) (c :: acc)) = _
    rw [hc]
    simp only [Bool.false_eq_true, if_false]
    rw [ih (fun x hx => hw x (List.mem_cons_of_mem _ hx)) t (c :: acc)]
    congr 1
    simp

lemma splitWs_join (ws : List (List Char))
    (h : ∀ w ∈ ws, w ≠ [] ∧ ∀ c ∈ w, c.isWhitespace = false) :
    splitWhitespaceL (joinSpaces ws) = ws := by
  induction ws with
  | nil => rfl
  | cons w ws' ih =>
    obtain ⟨hwne, hwc⟩ := h w (List.mem_cons_self w ws')
    cases ws' with
    | nil =>
      show splitWsGo (joinSpaces [w]) [] = [w]
      have : joinSpaces [w] = w ++ [] := by simp [joinSpaces]
      rw [this, splitWsGo_nonws w hwc [] []]
      show (if (w.reverse ++ []).isEmpty then _ else [(w.reverse ++ []).reverse]) = [w]
      have hne : (w.reverse ++ []).isEmpty = false := by
        simp [List.isEmpty_iff, hwne]
      rw [hne]
      simp
    | cons w2 ws'' =>
      rw [joinSpaces_cons w (w2 :: ws'') (by simp)]
      unfold splitWhitespaceL
      rw [splitWsGo_nonws w hwc _ []]
      have hsp : (' ').isWhitespace = true := by decide
      have hne : (w.reverse ++ ([] : List Char)).isEmpty = false := by
        simp [List.isEmpty_iff, hwne]
      simp only [splitWsGo, hsp, hne, if_true, Bool.false_eq_true, if_false]
      have ih2 := ih (fun x hx => h x (List.mem_cons_of_mem _ hx))
      unfold splitWhitespaceL at ih2
      rw [ih2]
      simp

lemma splitWsGo_wf :
    ∀ (cs acc : List Char), (∀ c ∈ acc, c.isWhitespace = false) →
      ∀ w ∈ splitWsGo cs acc, w ≠ [] ∧ ∀ c ∈ w, c.isWhitespace = false := by
  intro cs
  induction cs with
  | nil =>
    intro acc hacc w hw
    by_cases he : acc.isEmpty
    · simp [splitWsGo, he] at hw
    · simp only [splitWsGo, he, Bool.false_eq_true, if_false] at hw
      simp only [List.mem_singleton] at hw
      subst hw
      refine ⟨by simpa [List.isEmpty_iff] using he, ?_⟩
      intro c hc
      exact hacc c (List.mem_reverse.mp hc)
  | cons c cs' ih =>
    intro acc hacc w hw
    by_cases hws : c.isWhitespace
    · by_cases he : acc.isEmpty
      · simp only [splitWsGo, hws, he, if_true] at hw
        exact ih [] (by simp) w hw
      · simp only [splitWsGo, hws, he, if_true, Bool.false_eq_true, if_false,
          List.mem_cons] at hw
        rcases hw with hw | hw
        · subst hw
          refine ⟨by simpa [List.isEmpty_iff] using he, ?_⟩
          intro x hx
          exact hacc x (List.mem_reverse.mp hx)
        · exact ih [] (by simp) w hw
    · simp only [splitWsGo, hws, Bool.false_eq_true, if_false] at hw
      refine ih (c :: acc) ?_ w hw
      intro x hx
      rcases List.mem_cons.mp hx with hx | hx
      · subst hx; simpa using hws
      · exact hacc x hx

lemma take_decompose (words : List (List Char)) (k m : ℕ) (hk : k < m)
    (_hm : m ≤ words.length) :
    words.take m = words.take k ++ (words.take m).drop k := by
  conv_lhs => rw [← List.take_append_drop k (words.take m)]
  rw [List.take_take, min_eq_left (le_of_lt hk)]

lemma take_ne_nil (words : List (List Char)) (k : ℕ) (hk : 0 < k)
    (hkW : k ≤ words.length) : words.take k ≠ [] := by
  have : (words.take k).length = k := by
    rw [List.length_take]; omega
  intro h
  rw [h] at this
  simp at this
  omega

lemma slice_ne_nil (words : List (List Char)) (k m : ℕ) (hk : k < m)
    (hm : m ≤ words.length) : (words.take m).drop k ≠ [] := by
  have : ((words.take m).drop k).length = m - k := by
    rw [List.length_drop, List.length_take]; omega
  intro h
  rw [h] at this
  simp at this
  omega

lemma F_split (words : List (List Char)) (k m : ℕ) (hk : 0 < k) (hkm : k < m)
    (hm : m ≤ words.length) :
    blenL (joinSpaces (words.take m)) =
      blenL (joinSpaces (words.take k)) + 1 + blenL (joinSpaces ((words.take m).drop k)) := by
  conv_lhs => rw [take_decompose words k m hkm hm]
  rw [joinSpaces_append _ _ (take_ne_nil words k hk (by omega)) (slice_ne_nil words k m hkm hm),
    blenL_append, blenL_cons]
  have : (' ').utf8Size = 1 := by decide
  omega

namespace Ingest

lemma chain_cover (l : List DocumentChunk) :
    ∀ (p : ℕ), l ≠ [] →
      (∀ c0 ∈ l.head?, c0.startPosition ≤ p) →
      l.Chain' (fun c c2 => c2.startPosition ≤ c.endPosition) →
      (∀ cl ∈ l.getLast?, p < cl.endPosition) →
      ∃ c ∈ l, c.startPosition ≤ p ∧ p < c.endPosition := by
  induction l with
  | nil => intro p h; simp at h
  | cons c rest ih =>
    intro p _ hhead hchain hlast
    cases rest with
    | nil =>
      refine ⟨c, List.mem_singleton_self c, hhead c rfl, hlast c ?_⟩
      rfl
    | cons c2 rest' =>
      by_cases hp : p < c.endPosition
      · exact ⟨c, List.mem_cons_self .., hhead c rfl, hp⟩
      · have hc2 : c2.startPosition ≤ c.endPosition := (List.chain'_cons.mp hchain).1
        obtain ⟨cc, hcc, h1, h2⟩ := ih p (by simp)
          (by intro c0 hc0; simp at hc0; subst hc0; omega)
          (List.chain'_cons.mp hchain).2
          (by intro cl hcl; exact hlast cl (by rw [List.getLast?_cons_cons]; exact hcl))
        exact ⟨cc, List.mem_cons_of_mem _ hcc, h1, h2⟩

lemma createChunksGo_spec (words : List (List Char)) (config : IngestionConfig)
    (hwf : ∀ w ∈ words, w ≠ [] ∧ ∀ c ∈ w, c.isWhitespace = false)
    (hcs : 0 < config.chunkSize) (hov0 : 0 < config.chunkOverlap)
    (hov : config.chunkOverlap < config.chunkSize) :
    ∀ (n startIdx cidx : ℕ), words.length - startIdx ≤ n → startIdx < words.length →
      createChunksGo words config startIdx cidx ≠ [] ∧
      (createChunksGo words config startIdx cidx).head?.map DocumentChunk.startPosition =
        some (if startIdx = 0 then 0 else blenL (joinSpaces (words.take startIdx)) + 1) ∧
      (createChunksGo words config startIdx cidx).getLast?.map DocumentChunk.endPosition =
        some (blenL (joinSpaces words)) ∧
      (∀ c ∈ createChunksGo words config startIdx cidx,
        ∃ pre suf, joinSpaces words = pre ++ c.content.data ++ suf ∧
          blenL pre = c.startPosition ∧
          blenL (pre ++ c.content.data) = c.endPosition) ∧
      (createChunksGo words config startIdx cidx).Chain'
        (fun c c2 => c2.startPosition ≤ c.endPosition) ∧
      (∀ c ∈ (createChunksGo words config startIdx cidx).dropLast,
        (splitWhitespaceL c.content.data).length = config.chunkSize) ∧
      (∀ c ∈ (createChunksGo words config startIdx cidx).getLast?,
        1 ≤ (splitWhitespaceL c.content.data).length ∧
        (splitWhitespaceL c.content.data).length ≤ config.chunkSize) := by
  intro n
  induction n with
  | zero => intro s cidx hn hs; omega
  | succ n ih =>
    intro s cidx hn hs
    set e := min (s + config.chunkSize) words.length with he
    set slice := (words.take e).drop s with hslice
    set pos := (if s = 0 then 0 else blenL (joinSpaces (words.take s)) + 1) with hpos
    set nxt := (if e = words.length then words.length
      else max (s + 1) (e - config.chunkOverlap)) with hnxt
    have hse : s < e := by omega
    have heW2 : e ≤ words.length := by omega
    have hout : createChunksGo words config s cidx =
        (⟨⟨joinSpaces slice⟩, cidx, pos, pos + blenL (joinSpaces slice)⟩ : DocumentChunk) ::
          createChunksGo words config nxt (cidx + 1) := by
      rw [createChunksGo.eq_def, dif_pos hs]
    have hsliceWf : ∀ w ∈ slice, w ≠ [] ∧ ∀ c ∈ w, c.isWhitespace = false := by
      intro w hw
      exact hwf w (List.mem_of_mem_take (List.mem_of_mem_drop hw))
    have hsliceNe : slice ≠ [] := by
      rw [hslice]; exact slice_ne_nil words s e hse heW2
    have hsliceLen : slice.length = e - s := by
      rw [hslice, List.length_drop, List.length_take]
      omega
    have hwcount : (splitWhitespaceL (joinSpaces slice)).length = e - s := by
      rw [splitWs_join slice hsliceWf, hsliceLen]
    have hcontent : ((⟨joinSpaces slice⟩ : String)).data = joinSpaces slice := rfl
    have hpre : blenL (if s = 0 then ([] : List Char)
        else joinSpaces (words.take s) ++ [' ']) = pos := by
      by_cases hs0 : s = 0
      · rw [if_pos hs0, hpos, if_pos hs0]; rfl
      · rw [if_neg hs0, hpos, if_neg hs0, blenL_append]
        have h1 : blenL [' '] = 1 := by decide
        omega
    have hprejoin : (if s = 0 then ([] : List Char)
          else joinSpaces (words.take s) ++ [' ']) ++ joinSpaces slice =
        joinSpaces (words.take e) := by
      by_cases hs0 : s = 0
      · rw [if_pos hs0, List.nil_append, hslice, hs0, List.drop_zero]
      · rw [if_neg hs0]
        have hdec : words.take e = words.take s ++ slice := by
          rw [hslice]; exact take_decompose words s e hse heW2
        rw [hdec, joinSpaces_append _ _
          (take_ne_nil words s (by omega) (by omega)) hsliceNe]
        simp
    have hjoinE : pos + blenL (joinSpaces slice) = blenL (joinSpaces (words.take e)) := by
      rw [← hprejoin, blenL_append, hpre]
    have hdropNe : e < words.length → words.drop e ≠ [] := by
      intro hlt hnil
      have : (words.drop e).length = words.length - e := List.length_drop e words
      rw [hnil] at this
      simp at this
      omega
    have hdecompAll : joinSpaces words =
        ((if s = 0 then ([] : List Char) else joinSpaces (words.take s) ++ [' ']) ++
          joinSpaces slice) ++
          (if e = words.length then ([] : List Char)
            else ' ' :: joinSpaces (words.drop e)) := by
      by_cases heqW : e = words.length
      · rw [if_pos heqW, List.append_nil, hprejoin, heqW, List.take_length]
      · rw [if_neg heqW, hprejoin]
        conv_lhs => rw [← List.take_append_drop e words]
        rw [joinSpaces_append _ _
          (take_ne_nil words e (by omega) heW2) (hdropNe (by omega))]
    have hchunkDecomp :
        ∃ pre suf, joinSpaces words = pre ++ joinSpaces slice ++ suf ∧
          blenL pre = pos ∧
          blenL (pre ++ joinSpaces slice) = pos + blenL (joinSpaces slice) := by
      refine ⟨(if s = 0 then ([] : List Char) else joinSpaces (words.take s) ++ [' ']),
        (if e = words.length then ([] : List Char) else ' ' :: joinSpaces (words.drop e)),
        ?_, hpre, ?_⟩
      · exact hdecompAll
      · rw [blenL_append, hpre]
    by_cases heW : e = words.length
    · -- final chunk: the recursion stops at nxt = words.length
      have hnxtW : nxt = words.length := by rw [hnxt, if_pos heW]
      have hrec : createChunksGo words config nxt (cidx + 1) = [] := by
        rw [createChunksGo.eq_def, dif_neg (by rw [hnxtW]; omega)]
      rw [hout, hrec]
      have hEnd : pos + blenL (joinSpaces slice) = blenL (joinSpaces words) := by
        rw [hjoinE, heW, List.take_length]
      refine ⟨by simp, by simp, by simp [hEnd], ?_, by simp, by simp, ?_⟩
      · intro c hc
        simp only [List.mem_singleton] at hc
        subst hc
        exact hchunkDecomp
      · intro c hc
        simp only [List.getLast?_singleton, Option.mem_def, Option.some.injEq] at hc
        subst hc
        simp only [hcontent, hwcount]
        omega
    · -- full chunk; the tail is produced by the recursive call
      have heE : e = s + config.chunkSize := by omega
      have heltW : e < words.length := by omega
      have hnxtv : nxt = e - config.chunkOverlap := by
        rw [hnxt, if_neg heW]
        omega
      have hnxtb : s + 1 ≤ nxt ∧ nxt ≤ e - 1 := by omega
      obtain ⟨hne, hhead, hlast, hdecomp, hchain, hfull, hlastwc⟩ :=
        ih nxt (cidx + 1) (by omega) (by omega)
      obtain ⟨r, rest', hrest⟩ := List.exists_cons_of_ne_nil hne
      have hFe : blenL (joinSpaces (words.take e)) =
          blenL (joinSpaces (words.take nxt)) + 1 +
            blenL (joinSpaces ((words.take e).drop nxt)) :=
        F_split words nxt e (by omega) (by omega) heW2
      rw [hout]
      refine ⟨by simp, by simp, ?_, ?_, ?_, ?_, ?_⟩
      · rw [hrest, List.getLast?_cons_cons, ← hrest]
        exact hlast
      · intro c hc
        rcases List.mem_cons.mp hc with hc | hc
        · subst hc
          exact hchunkDecomp
        · exact hdecomp c hc
      · rw [hrest]
        apply List.Chain'.cons
        · have hr : r.startPosition = blenL (joinSpaces (words.take nxt)) + 1 := by
            rw [hrest] at hhead
            simp only [List.head?_cons, Option.map_some'] at hhead
            have hnxt0 : ¬ nxt = 0 := by omega
            rw [if_neg hnxt0] at hhead
            injection hhead
          show r.startPosition ≤ pos + blenL (joinSpaces slice)
          rw [hr, hjoinE]
          omega
        · rw [← hrest]
          exact hchain
      · intro c hc
        rw [hrest, List.dropLast_cons₂, ← hrest] at hc
        rcases List.mem_cons.mp hc with hc | hc
        · subst hc
          simp only [hcontent, hwcount]
          omega
        · exact hfull c hc
      · intro c hc
        rw [hrest, List.getLast?_cons_cons, ← hrest] at hc
        exact hlastwc c hc

end Ingest

theorem Ingest.create_chunks_normalized_spec (content : String) (config : IngestionConfig)
    (hcs : 0 < config.chunkSize) (hov0 : 0 < config.chunkOverlap)
    (hov : config.chunkOverlap < config.chunkSize)
    (hne : splitWhitespaceL content.data ≠ []) :
    (∀ c ∈ createChunks content config,
      ∃ pre suf,
        joinSpaces (splitWhitespaceL content.data) = pre ++ c.content.data ++ suf ∧
        blenL pre = c.startPosition ∧ blenL (pre ++ c.content.data) = c.endPosition) ∧
    (∀ p < blenL (joinSpaces (splitWhitespaceL content.data)),
      ∃ c ∈ createChunks content config, c.startPosition ≤ p ∧ p < c.endPosition) ∧
    (∀ c ∈ (createChunks content config).dropLast,
      (splitWhitespaceL c.content.data).length = config.chunkSize) ∧
    (∀ c ∈ (createChunks content config).getLast?,
      1 ≤ (splitWhitespaceL c.content.data).length ∧
      (splitWhitespaceL c.content.data).length ≤ config.chunkSize) := by
  have hwords : createChunks content config =
      createChunksGo (splitWhitespaceL content.data) config 0 0 := by
    unfold createChunks
    rw [if_neg (by simpa [List.isEmpty_iff] using hne)]
  have hwf : ∀ w ∈ splitWhitespaceL content.data,
      w ≠ [] ∧ ∀ c ∈ w, c.isWhitespace = false :=
    splitWsGo_wf content.data [] (by simp)
  have hW : 0 < (splitWhitespaceL content.data).length :=
    List.length_pos.mpr hne
  obtain ⟨h1, h2, h3, h4, h5, h6, h7⟩ :=
    createChunksGo_spec (splitWhitespaceL content.data) config hwf hcs hov0 hov
      (splitWhitespaceL content.data).length 0 0 (by omega) hW
  rw [hwords]
  refine ⟨h4, ?_, h6, h7⟩
  intro p hp
  apply chain_cover _ p h1 ?_ h5 ?_
  · intro c0 hc0
    have : (createChunksGo (splitWhitespaceL content.data) config 0 0).head?.map
        DocumentChunk.startPosition = some 0 := by
      rw [h2]; rfl
    cases hh : (createChunksGo (splitWhitespaceL content.data) config 0 0).head? with
    | none => simp [hh] at hc0
    | some c1 =>
      rw [hh] at this hc0
      simp only [Option.map_some'] at this
      simp only [Option.mem_def, Option.some.injEq] at hc0
      subst hc0
      injection this with h0
      omega
  · intro cl hcl
    cases hh : (createChunksGo (splitWhitespaceL content.data) config 0 0).getLast? with
    | none => simp [hh] at hcl
    | some c1 =>
      rw [hh] at h3 hcl
      simp only [Option.map_some'] at h3
      simp only [Option.mem_def, Option.some.injEq] at hcl
      subst hcl
      injection h3 with h0
      omega

/-- Witness for C8: `hello world test` with `chunk_size 2`, `overlap 1`,
evaluated through the theorem. -/
theorem Ingest.create_chunks_normalized_spec_witness :
    ((0 < 2 ∧ 0 < 1 ∧ 1 < 2) ∧ splitWhitespaceL "hello world test".data ≠ []) ∧
    ((∀ c ∈ Ingest.createChunks "hello world test" ⟨104857600, 2, 1, [], true, true, false⟩,
      ∃ pre suf,
        joinSpaces (splitWhitespaceL "hello world test".data) = pre ++ c.content.data ++ suf ∧
        blenL pre = c.startPosition ∧ blenL (pre ++ c.content.data) = c.endPosition) ∧
    (∀ p < blenL (joinSpaces (splitWhitespaceL "hello world test".data)),
      ∃ c ∈ Ingest.createChunks "hello world test" ⟨104857600, 2, 1, [], true, true, false⟩,
        c.startPosition ≤ p ∧ p < c.endPosition) ∧
    (∀ c ∈ (Ingest.createChunks "hello world test"
        ⟨104857600, 2, 1, [], true, true, false⟩).dropLast,
      (splitWhitespaceL c.content.data).length = 2) ∧
    (∀ c ∈ (Ingest.createChunks "hello world test"
        ⟨104857600, 2, 1, [], true, true, false⟩).getLast?,
      1 ≤ (splitWhitespaceL c.content.data).length ∧
      (splitWhitespaceL c.content.data).length ≤ 2)) :=
  ⟨⟨⟨by decide, by decide, by decide⟩, by decide⟩,
    Ingest.create_chunks_normalized_spec "hello world test"
      ⟨104857600, 2, 1, [], true, true, false⟩ (by decide) (by decide) (by decide) (by decide)⟩
